import Mathlib

/-!
# Verification of `tadepool-utils` (`src/utils.ts`)

A shallow embedding of the library's tree-shaped data model and of its
operations (`isValid`, `sanitize`, `toTitleCase`, `camelize*`, `areEqual`,
`groupBy`, `normalize`), together with proofs and refutations of the
specified properties.

JavaScript values reachable by these functions are modelled by the mutual
inductive family `TreeVal` / `TreeList` / `TreeEntries` below; JavaScript
string primitives (`trim`, `toLocaleLowerCase`, `toLocaleUpperCase`,
`split`, `join`) are modelled character-wise over `String.data`.
-/

namespace Tadepool

/-- Model of JavaScript `String.prototype.trim`: drop leading and trailing
whitespace characters. -/
def jsTrim (s : String) : String :=
  ⟨((s.data.dropWhile Char.isWhitespace).reverse.dropWhile Char.isWhitespace).reverse⟩

/-- Model of `toLocaleLowerCase`, character-wise. -/
def jsToLower (s : String) : String :=
  ⟨s.data.map Char.toLower⟩

/-- Model of `toLocaleUpperCase`, character-wise. -/
def jsToUpper (s : String) : String :=
  ⟨s.data.map Char.toUpper⟩

/-- `leadsWith sep l` holds when the character list `sep` is an initial
segment of `l` (the "literal substring match at this position" test used by
`split`). -/
def leadsWith : List Char → List Char → Bool
  | [], _ => true
  | _ :: _, [] => false
  | c :: cs, d :: ds => c == d && leadsWith cs ds

/-- Worker for `jsSplit` on a non-empty separator.  `fuel` is an upper bound
on the number of consumed characters; `jsSplit` supplies `l.length`, which
suffices because every step consumes at least one character.  The
fuel-exhausted branch is unreachable under that call pattern. -/
def splitGo (sep : List Char) : Nat → List Char → List (List Char)
  | _, [] => [[]]
  | 0, l => [l]
  | fuel + 1, c :: rest =>
    if leadsWith sep (c :: rest) then
      [] :: splitGo sep fuel ((c :: rest).drop sep.length)
    else
      match splitGo sep fuel rest with
      | [] => [[c]]
      | seg :: segs => (c :: seg) :: segs

/-- Model of JavaScript `String.prototype.split` with a string separator:
literal leftmost-first substring matching; the empty separator splits the
string into its individual characters (and `"".split("")` is `[]`). -/
def jsSplit (s sep : String) : List String :=
  if sep.data.isEmpty then s.data.map (fun c => String.mk [c])
  else (splitGo sep.data s.data.length s.data).map String.mk

/-- Model of JavaScript `Array.prototype.join(" ")`. -/
def joinSpace : List String → String
  | [] => ""
  | [s] => s
  | s :: rest => s ++ " " ++ joinSpace rest

/-- Model of JavaScript `Array.prototype.join("")`. -/
def joinEmpty : List String → String
  | [] => ""
  | s :: rest => s ++ joinEmpty rest

/-- The per-segment transform of `toTitleCase`:
`v.substring(0, 1)?.toLocaleUpperCase() + v.substring(1)?.toLocaleLowerCase()`. -/
def titleSegment (v : String) : String :=
  jsToUpper (String.mk (v.data.take 1)) ++ jsToLower (String.mk (v.data.drop 1))

/-- `toTitleCase` from `src/utils.ts` (string case; on a non-string input the
source returns the input unchanged, which is outside this function's type). -/
def toTitleCase (value : String) (splitter : String := " ") : String :=
  joinSpace ((jsSplit value splitter).map titleSegment)

mutual
/-- The tree-shaped JavaScript values the library operates on.
`null`, `undef` (the `undefined` / `Missing` marker), string / number /
bigint / boolean scalars, opaque function values (compared by reference,
modelled by an identifier), arrays, and plain objects as ordered key-value
entry lists. -/
inductive TreeVal where
  | null
  | undef
  | str (s : String)
  | num (n : Int)
  | bigintv (n : Int)
  | boolv (b : Bool)
  | func (id : Nat)
  | arr (elems : TreeList)
  | obj (entries : TreeEntries)
  deriving DecidableEq
inductive TreeList where
  | nil
  | cons (head : TreeVal) (tail : TreeList)
  deriving DecidableEq
inductive TreeEntries where
  | nil
  | cons (key : String) (val : TreeVal) (tail : TreeEntries)
  deriving DecidableEq
end

/-- Convert a `TreeList` to a Lean list of its elements. -/
def TreeList.toList : TreeList → List TreeVal
  | .nil => []
  | .cons v rest => v :: rest.toList

/-- Build a `TreeList` from a Lean list. -/
def TreeList.ofList : List TreeVal → TreeList
  | [] => .nil
  | v :: rest => .cons v (TreeList.ofList rest)

/-- Convert a `TreeEntries` to a Lean association list. -/
def TreeEntries.toList : TreeEntries → List (String × TreeVal)
  | .nil => []
  | .cons k v rest => (k, v) :: rest.toList

/-- Build a `TreeEntries` from a Lean association list. -/
def TreeEntries.ofList : List (String × TreeVal) → TreeEntries
  | [] => .nil
  | (k, v) :: rest => .cons k v (TreeEntries.ofList rest)

/-- `Object.keys`, in insertion order. -/
def TreeEntries.keys (e : TreeEntries) : List String :=
  e.toList.map Prod.fst

/-- Property access `obj[k]` on an object: the value stored under the first
matching key, or `undefined` when the key is absent. -/
def jsGet : TreeEntries → String → TreeVal
  | .nil, _ => .undef
  | .cons k' v rest, k => if k' == k then v else jsGet rest k

mutual
/-- `isValid` from `src/utils.ts`: a string is valid when its trimmed form is
non-empty; numbers, bigints and booleans are always valid; `null`,
`undefined` and functions are invalid; an array is valid when some element
is valid; a non-null non-array object is valid when some stored value is
valid. -/
def isValid : TreeVal → Bool
  | .str s => !(jsTrim s).data.isEmpty
  | .num _ => true
  | .bigintv _ => true
  | .boolv _ => true
  | .arr l => someValid l
  | .obj kvs => someValidEntry kvs
  | _ => false
def someValid : TreeList → Bool
  | .nil => false
  | .cons v rest => isValid v || someValid rest
def someValidEntry : TreeEntries → Bool
  | .nil => false
  | .cons _ v rest => isValid v || someValidEntry rest
end

mutual
/-- `sanitize` from `src/utils.ts`: trim strings, return `null` and
non-object scalars unchanged, and rebuild arrays/objects keeping each
sanitized child exactly when the sanitized child passes `isValid`. -/
def sanitize : TreeVal → TreeVal
  | .str s => .str (jsTrim s)
  | .null => .null
  | .arr l => .arr (sanitizeList l)
  | .obj kvs => .obj (sanitizeEntries kvs)
  | v => v
def sanitizeList : TreeList → TreeList
  | .nil => .nil
  | .cons v rest =>
    if isValid (sanitize v) then .cons (sanitize v) (sanitizeList rest)
    else sanitizeList rest
def sanitizeEntries : TreeEntries → TreeEntries
  | .nil => .nil
  | .cons k v rest =>
    if isValid (sanitize v) then .cons k (sanitize v) (sanitizeEntries rest)
    else sanitizeEntries rest
end

example : isValid (.obj (.cons "code" (.str "") (.cons "name" (.str "") .nil))) = false := by decide
example : isValid (.obj (.cons "code" (.str "123XX") (.cons "name" (.str "") .nil))) = true := by decide
example : sanitize (.obj (.cons "name" (.str "  x  ") (.cons "info" (.obj .nil) (.cons "list" (.arr .nil) .nil))))
    = .obj (.cons "name" (.str "x") .nil) := by decide
example : toTitleCase "barbie girl" = "Barbie Girl" := by decide
example : toTitleCase "barbie_girl" "_" = "Barbie Girl" := by decide
example : toTitleCase "barbie girl, a niCe womAn" = "Barbie Girl, A Nice Woman" := by decide

/-- The key rewrite of `camelizeObject`: split the key on `"_"`, lowercase the
whole first segment, pass each later segment through `toTitleCase`, and
concatenate with the empty joiner. -/
def transformKey (key : String) : String :=
  let splittedKey := jsSplit key "_"
  jsToLower (splittedKey.headD "") ++ joinEmpty ((splittedKey.drop 1).map (fun seg => toTitleCase seg))

/-- JavaScript property assignment `result[k] = v`: replace the value stored
under an existing key in place, otherwise append a new entry. -/
def entryAssign : TreeEntries → String → TreeVal → TreeEntries
  | .nil, k, v => .cons k v .nil
  | .cons k' v' rest, k, v =>
    if k' == k then .cons k' v rest else .cons k' v' (entryAssign rest k v)

mutual
/-- `camelizeObject` from `src/utils.ts`: non-object and `null` inputs pass
through, arrays go through `camelizeArray`, and objects are rebuilt entry by
entry with `transformKey` on keys and a recursive call on values. -/
def camelizeObject : TreeVal → TreeVal
  | .arr l => .arr (camelizeArray l)
  | .obj kvs => .obj (camelizeGo kvs .nil)
  | v => v
/-- The `keys.forEach` loop of `camelizeObject`, accumulating into `result`
via JavaScript assignment (so key collisions are last-write-wins). -/
def camelizeGo : TreeEntries → TreeEntries → TreeEntries
  | .nil, result => result
  | .cons key value rest, result =>
    camelizeGo rest (entryAssign result (transformKey key) (camelizeObject value))
/-- `camelizeArray` from `src/utils.ts`: map each element, recursing into the
array branch directly for nested arrays and into `camelizeObject` otherwise. -/
def camelizeArray : TreeList → TreeList
  | .nil => .nil
  | .cons item rest =>
    .cons
      (match item with
       | .arr l => .arr (camelizeArray l)
       | other => camelizeObject other)
      (camelizeArray rest)
end

/-- `camelize` from `src/utils.ts`: the public dispatcher over
`camelizeArray` / `camelizeObject`. -/
def camelize : TreeVal → TreeVal
  | .arr l => .arr (camelizeArray l)
  | .obj kvs => .obj (camelizeGo kvs .nil)
  | v => v

example : camelize (.obj (.cons "person_name" (.str "x") (.cons "roles" (.arr (.cons (.str "a") (.cons (.str "b") .nil))) .nil)))
    = .obj (.cons "personName" (.str "x") (.cons "roles" (.arr (.cons (.str "a") (.cons (.str "b") .nil))) .nil)) := by decide

mutual
/-- Nesting depth of a tree value: scalars and absence markers have depth `0`,
containers one more than their deepest child.  Used only to pre-compute a
sufficient recursion bound for `areEqual`. -/
def TreeVal.depth : TreeVal → Nat
  | .arr l => 1 + TreeList.depthMax l
  | .obj e => 1 + TreeEntries.depthMax e
  | _ => 0
def TreeList.depthMax : TreeList → Nat
  | .nil => 0
  | .cons v rest => max v.depth rest.depthMax
def TreeEntries.depthMax : TreeEntries → Nat
  | .nil => 0
  | .cons _ v rest => max v.depth rest.depthMax
end

/-- The string branch of `areEqual`: optionally trim both sides, then compare
either case-insensitively or exactly. -/
def strEqJS (a b : String) (trimWhiteSpace ignoreCase : Bool) : Bool :=
  let v1 := if trimWhiteSpace then jsTrim a else a
  let v2 := if trimWhiteSpace then jsTrim b else b
  if ignoreCase then jsToLower v1 == jsToLower v2 else v1 == v2

/-- `areEqual` from `src/utils.ts`, as a fuel-indexed recursion (`areEqual`
below instantiates the fuel with a bound that always suffices, so the `0`
branch is unreachable there).  Kinds are compared first (`typeof`), so any
cross-kind pair is unequal; arrays compare lengths then
`value2.every((value, index) => areEqual(value, value1[index], ...))` with
out-of-range indexing yielding `undefined`; objects compare key counts then
`Object.keys(value1).every((key) => areEqual(v1[key], v2[key], ...))`. -/
def areEqualF : Nat → TreeVal → TreeVal → Bool → Bool → Bool
  | 0, _, _, _, _ => false
  | fuel + 1, value1, value2, trimWhiteSpace, ignoreCase =>
    match value1, value2 with
    | .str a, .str b => strEqJS a b trimWhiteSpace ignoreCase
    | .num a, .num b => a == b
    | .bigintv a, .bigintv b => a == b
    | .boolv a, .boolv b => a == b
    | .func a, .func b => a == b
    | .null, .null => true
    | .undef, .undef => true
    | .arr l1, .arr l2 =>
      (l1.toList.length == l2.toList.length) &&
        (List.range l2.toList.length).all fun i =>
          areEqualF fuel (l2.toList.getD i .undef) (l1.toList.getD i .undef)
            trimWhiteSpace ignoreCase
    | .obj e1, .obj e2 =>
      (e1.keys.length == e2.keys.length) &&
        e1.keys.all fun k =>
          areEqualF fuel (jsGet e1 k) (jsGet e2 k) trimWhiteSpace ignoreCase
    | _, _ => false

/-- `areEqual` from `src/utils.ts` (fuel instantiated with a sufficient
bound; flag defaults follow the source: `trimWhiteSpace = false`,
`ignoreCase = true`). -/
def areEqual (value1 value2 : TreeVal) (trimWhiteSpace : Bool := false)
    (ignoreCase : Bool := true) : Bool :=
  areEqualF (value1.depth + value2.depth + 1) value1 value2 trimWhiteSpace ignoreCase

example : areEqual (.str "hello") (.str "Hello") = true := by decide
example : areEqual (.str "hello") (.str "Hello") false false = false := by decide
example : areEqual (.arr (.cons (.num 1) .nil)) (.arr (.cons (.num 1) .nil)) = true := by decide
example : areEqual (.obj (.cons "a" (.num 1) .nil)) (.obj (.cons "a" (.num 1) .nil)) = true := by decide
example : areEqual (.obj (.cons "a" (.num 1) .nil)) (.obj (.cons "b" (.num 1) .nil)) = false := by decide

/-- JavaScript truthiness of a tree value (`NaN` is outside the model; the
numeric kinds are modelled exactly at `0`). -/
def isTruthy : TreeVal → Bool
  | .null => false
  | .undef => false
  | .str s => !s.data.isEmpty
  | .num n => n != 0
  | .bigintv n => n != 0
  | .boolv b => b
  | _ => true

/-- First-match association-list lookup, the ordered-object model used for
the accumulators of `groupBy` / `normalize`. -/
def lookupKey {α : Type} : List (String × α) → String → Option α
  | [], _ => none
  | (k', v) :: rest, k => if k' == k then some v else lookupKey rest k

/-- JavaScript assignment `acc[k] = v` on the association-list object model:
overwrite in place when the key exists, append otherwise. -/
def assignKey {α : Type} : List (String × α) → String → α → List (String × α)
  | [], k, v => [(k, v)]
  | (k', v') :: rest, k, v =>
    if k' == k then (k', v) :: rest else (k', v') :: assignKey rest k v

/-- The `reduce` body of `groupBy`: skip elements whose generated key fails
`isValid`; otherwise push onto the list stored at the key, creating it on
first use (a stored JavaScript array is always truthy, so the source's
`!accumulator[key]` test is a presence test here). -/
def groupByGo (keyGenerator : TreeVal → String) :
    List TreeVal → List (String × List TreeVal) → List (String × List TreeVal)
  | [], accumulator => accumulator
  | currentItem :: rest, accumulator =>
    let key := keyGenerator currentItem
    if !isValid (.str key) then groupByGo keyGenerator rest accumulator
    else
      match lookupKey accumulator key with
      | none => groupByGo keyGenerator rest (assignKey accumulator key [currentItem])
      | some l => groupByGo keyGenerator rest (assignKey accumulator key (l ++ [currentItem]))

/-- The `reduce` body of `normalize`: skip elements whose generated key fails
`isValid`; otherwise assign the element at the key when the slot's current
content (`undefined` when absent) is falsy — the source tests
`!accumulator[key]`, a truthiness test on the stored element, not a presence
test. -/
def normalizeGo (keyGenerator : TreeVal → String) :
    List TreeVal → List (String × TreeVal) → List (String × TreeVal)
  | [], accumulator => accumulator
  | currentItem :: rest, accumulator =>
    let key := keyGenerator currentItem
    if !isValid (.str key) then normalizeGo keyGenerator rest accumulator
    else if !isTruthy ((lookupKey accumulator key).getD .undef) then
      normalizeGo keyGenerator rest (assignKey accumulator key currentItem)
    else normalizeGo keyGenerator rest accumulator

/-- `groupBy` from `src/utils.ts`.  The key generator is `some f` when a
function was passed and `none` for any non-function argument; a non-array
collection or a non-function generator short-circuits to the empty object. -/
def groupBy (value : TreeVal) (keyGenerator : Option (TreeVal → String)) :
    List (String × List TreeVal) :=
  match value, keyGenerator with
  | .arr l, some f => groupByGo f l.toList []
  | _, _ => []

/-- `normalize` from `src/utils.ts`, with the same malformed-input guard as
`groupBy`. -/
def normalize (value : TreeVal) (keyGenerator : Option (TreeVal → String)) :
    List (String × TreeVal) :=
  match value, keyGenerator with
  | .arr l, some f => normalizeGo f l.toList []
  | _, _ => []

example :
    groupBy (.arr (.cons (.obj (.cons "g" (.str "A") .nil))
        (.cons (.obj (.cons "g" (.str "B") .nil))
          (.cons (.obj (.cons "g" (.str "A") .nil)) .nil))))
      (some fun e => match jsGet (match e with | .obj kvs => kvs | _ => .nil) "g" with
        | .str s => s
        | _ => "") =
    [("A", [.obj (.cons "g" (.str "A") .nil), .obj (.cons "g" (.str "A") .nil)]),
     ("B", [.obj (.cons "g" (.str "B") .nil)])] := by decide

/-! ## Basic list-conversion lemmas -/

def TreeList.ofList_toList : ∀ l : TreeList, TreeList.ofList l.toList = l
  | .nil => rfl
  | .cons v rest => by simp [TreeList.toList, TreeList.ofList, ofList_toList rest]

def TreeEntries.ofList_toList : ∀ e : TreeEntries, TreeEntries.ofList e.toList = e
  | .nil => rfl
  | .cons k v rest => by simp [TreeEntries.toList, TreeEntries.ofList, ofList_toList rest]

def someValid_eq : ∀ l : TreeList, someValid l = l.toList.any isValid
  | .nil => rfl
  | .cons v rest => by simp [someValid, TreeList.toList, someValid_eq rest]

def someValidEntry_eq :
    ∀ e : TreeEntries, someValidEntry e = e.toList.any fun kv => isValid kv.2
  | .nil => rfl
  | .cons k v rest => by simp [someValidEntry, TreeEntries.toList, someValidEntry_eq rest]

def sanitizeList_toList :
    ∀ l : TreeList, (sanitizeList l).toList = (l.toList.map sanitize).filter fun v => isValid v
  | .nil => rfl
  | .cons v rest => by
    by_cases h : isValid (sanitize v) = true
    · simp [sanitizeList, TreeList.toList, h, sanitizeList_toList rest]
    · simp [sanitizeList, TreeList.toList, h, sanitizeList_toList rest,
        Bool.not_eq_true _ ▸ h]

def sanitizeEntries_toList :
    ∀ e : TreeEntries, (sanitizeEntries e).toList =
      (e.toList.map fun kv => (kv.1, sanitize kv.2)).filter fun kv => isValid kv.2
  | .nil => rfl
  | .cons k v rest => by
    by_cases h : isValid (sanitize v) = true
    · simp [sanitizeEntries, TreeEntries.toList, h, sanitizeEntries_toList rest]
    · simp [sanitizeEntries, TreeEntries.toList, h, sanitizeEntries_toList rest]

/-! ## Claim C1 -/

/-- Claim C1: for every sequence, `sanitize` builds a new sequence containing,
in input order, exactly those elements whose sanitized form passes `isValid`
(invalid elements are omitted, not replaced); and for every record,
`sanitize` builds a new record keeping a key exactly when the sanitized
value under it passes `isValid`. -/
theorem sanitize_keeps_exactly_valid_children :
    (∀ l : TreeList, sanitize (.arr l) =
      .arr (TreeList.ofList ((l.toList.map sanitize).filter fun v => isValid v))) ∧
    (∀ e : TreeEntries, sanitize (.obj e) =
      .obj (TreeEntries.ofList
        ((e.toList.map fun kv => (kv.1, sanitize kv.2)).filter fun kv => isValid kv.2))) := by
  constructor
  · intro l
    have h : sanitize (.arr l) = .arr (sanitizeList l) := by simp [sanitize]
    rw [h, ← sanitizeList_toList l, TreeList.ofList_toList]
  · intro e
    have h : sanitize (.obj e) = .obj (sanitizeEntries e) := by simp [sanitize]
    rw [h, ← sanitizeEntries_toList e, TreeEntries.ofList_toList]

/-! ## Claim C3 -/

/-- Claim C3: a sequence is valid iff at least one element is valid, a record
is valid iff at least one stored value is valid (keys are never inspected);
consequently empty sequences, empty records, and records whose values are
all blank strings are invalid, while one valid value suffices. -/
theorem isValid_containers_iff_some_valid_child :
    (∀ l : TreeList, isValid (.arr l) = l.toList.any isValid) ∧
    (∀ e : TreeEntries, isValid (.obj e) = e.toList.any fun kv => isValid kv.2) ∧
    isValid (.arr .nil) = false ∧
    isValid (.obj .nil) = false ∧
    isValid (.obj (.cons "code" (.str "") (.cons "name" (.str "") .nil))) = false ∧
    isValid (.obj (.cons "code" (.str "123XX") (.cons "name" (.str "") .nil))) = true := by
  refine ⟨fun l => ?_, fun e => ?_, by decide, by decide, by decide, by decide⟩
  · simpa [isValid] using someValid_eq l
  · simpa [isValid] using someValidEntry_eq e

/-! ## Claim C4 -/

/-- Claim C4: `toTitleCase(s, p)` equals the segments of `s` split on the
literal splitter `p`, each segment transformed by uppercasing its first
character and lowercasing the remainder (an empty segment yields an empty
piece), rejoined with a single space regardless of what `p` was. -/
theorem toTitleCase_split_transform_join :
    (∀ s p : String, toTitleCase s p =
      joinSpace ((jsSplit s p).map fun v =>
        jsToUpper (String.mk (v.data.take 1)) ++ jsToLower (String.mk (v.data.drop 1)))) ∧
    titleSegment "" = "" ∧
    toTitleCase "a_b" "_" = "A B" := by
  exact ⟨fun s p => rfl, by decide, by decide⟩

/-! ## Claim C5 -/

/-- Claim C5 counterexample: the underscore-free key `"ABC"` is renamed to
`"abc"` (the whole key lowercased), not to `"aBC"` (first letter lowercased,
rest unchanged) as the claim states. -/
theorem camelize_key_not_first_letter_lowercased :
    camelizeObject (.obj (.cons "ABC" (.num 1) .nil)) = .obj (.cons "abc" (.num 1) .nil) ∧
    camelizeObject (.obj (.cons "ABC" (.num 1) .nil)) ≠ .obj (.cons "aBC" (.num 1) .nil) := by
  decide

def splitGo_no_occurrence :
    ∀ (fuel : Nat) (l : List Char), '_' ∉ l → splitGo ['_'] fuel l = [l]
  | fuel, [], _ => by cases fuel <;> rfl
  | 0, _ :: _, _ => rfl
  | fuel + 1, c :: t, h => by
    have hc : ('_' == c) = false :=
      beq_eq_false_iff_ne.mpr fun e => h (List.mem_cons.mpr (Or.inl e))
    have ht : splitGo ['_'] fuel t = [t] :=
      splitGo_no_occurrence fuel t fun m => h (List.mem_cons_of_mem _ m)
    simp [splitGo, leadsWith, hc, ht]

lemma jsSplit_no_underscore (key : String) (h : '_' ∉ key.data) :
    jsSplit key "_" = [key] := by
  simp [jsSplit, splitGo_no_occurrence _ _ h]

lemma transformKey_no_underscore (key : String) (h : '_' ∉ key.data) :
    transformKey key = jsToLower key := by
  simp [transformKey, jsSplit_no_underscore key h, joinEmpty, String.append_empty]

/-- Claim C5 (amended): a record key containing no underscore is renamed by
lowercasing the key in full (`splittedKey[0].toLocaleLowerCase()` lowercases
the whole single segment), not by lowercasing only its first letter. -/
theorem camelize_no_underscore_key_lowercased :
    ∀ (key : String) (v : TreeVal), '_' ∉ key.data →
      camelizeObject (.obj (.cons key v .nil)) =
        .obj (.cons (jsToLower key) (camelizeObject v) .nil) := by
  intro key v h
  simp [camelizeObject, camelizeGo, entryAssign, transformKey_no_underscore key h]

theorem camelize_no_underscore_key_lowercased_witness :
    '_' ∉ "Abc".data ∧
    camelizeObject (.obj (.cons "Abc" (.num 0) .nil)) =
      .obj (.cons (jsToLower "Abc") (camelizeObject (.num 0)) .nil) :=
  ⟨by decide, camelize_no_underscore_key_lowercased "Abc" (.num 0) (by decide)⟩

/-! ## Claim C10 -/

/-- Claim C10: when the collection is not a sequence or the key generator is
not a function, both `groupBy` and `normalize` return the empty mapping (and,
being total functions, never signal a failure). -/
theorem groupBy_normalize_malformed_input_empty :
    ∀ (value : TreeVal) (keyGenerator : Option (TreeVal → String)),
      ((∀ l : TreeList, value ≠ .arr l) ∨ keyGenerator = none) →
      groupBy value keyGenerator = [] ∧ normalize value keyGenerator = [] := by
  intro value kg h
  cases value <;> rcases kg with _ | f <;> try exact ⟨rfl, rfl⟩
  case arr.some l =>
    rcases h with h | h
    · exact absurd rfl (h l)
    · exact absurd h (by simp)

theorem groupBy_normalize_malformed_witness :
    ((∀ l : TreeList, (TreeVal.obj .nil) ≠ .arr l) ∨
      (none : Option (TreeVal → String)) = none) ∧
    groupBy (.obj .nil) none = [] ∧ normalize (.obj .nil) none = [] := by
  have h : (∀ l : TreeList, (TreeVal.obj .nil) ≠ .arr l) ∨
      (none : Option (TreeVal → String)) = none := Or.inr rfl
  exact ⟨h, groupBy_normalize_malformed_input_empty _ _ h⟩

/-! ## Trim idempotence -/

lemma dropWhile_dropWhile (p : Char → Bool) (l : List Char) :
    List.dropWhile p (List.dropWhile p l) = List.dropWhile p l := by
  induction l with
  | nil => rfl
  | cons c t ih => by_cases h : p c <;> simp [List.dropWhile_cons, h, ih]

lemma dropWhile_head_false (p : Char → Bool) :
    ∀ (l : List Char) (c : Char) (t : List Char), l.dropWhile p = c :: t → p c = false := by
  intro l
  induction l with
  | nil => intro c t h; simp at h
  | cons a r ih =>
    intro c t h
    by_cases ha : p a
    · exact ih c t (by simpa [List.dropWhile_cons, ha] using h)
    · rw [List.dropWhile_cons, if_neg (by simp [ha])] at h
      cases h
      simpa using ha

/-- The character-list version of `jsTrim`. -/
def trimChars (p : Char → Bool) (l : List Char) : List Char :=
  ((l.dropWhile p).reverse.dropWhile p).reverse

lemma trimChars_starts_dropWhile (p : Char → Bool) (l : List Char) :
    trimChars p l <+: l.dropWhile p := by
  have h : (l.dropWhile p).reverse.dropWhile p <:+ (l.dropWhile p).reverse :=
    List.dropWhile_suffix p
  have h2 : ((l.dropWhile p).reverse.dropWhile p).reverse <+: ((l.dropWhile p).reverse).reverse :=
    List.reverse_prefix.mpr h
  simpa [trimChars] using h2

lemma dropWhile_trimChars (p : Char → Bool) (l : List Char) :
    List.dropWhile p (trimChars p l) = trimChars p l := by
  rcases he : trimChars p l with _ | ⟨c, t⟩
  · rfl
  · obtain ⟨u, hu⟩ := he ▸ trimChars_starts_dropWhile p l
    have hc : p c = false := dropWhile_head_false p l c (t ++ u) (by simpa using hu.symm)
    simp [List.dropWhile_cons, hc]

lemma trimChars_trimChars (p : Char → Bool) (l : List Char) :
    trimChars p (trimChars p l) = trimChars p l := by
  have h1 : trimChars p (trimChars p l) = ((trimChars p l).reverse.dropWhile p).reverse := by
    rw [show trimChars p (trimChars p l)
        = (((trimChars p l).dropWhile p).reverse.dropWhile p).reverse from rfl,
      dropWhile_trimChars p l]
  have h2 : (trimChars p l).reverse = (l.dropWhile p).reverse.dropWhile p := by
    rw [show trimChars p l = ((l.dropWhile p).reverse.dropWhile p).reverse from rfl,
      List.reverse_reverse]
  rw [h1, h2, dropWhile_dropWhile]
  rfl

lemma jsTrim_idem (s : String) : jsTrim (jsTrim s) = jsTrim s :=
  congrArg String.mk (trimChars_trimChars Char.isWhitespace s.data)

/-! ## Claim C7 -/

mutual
def isValid_sanitize : ∀ t : TreeVal, isValid (sanitize t) = isValid t
  | .null => rfl
  | .undef => rfl
  | .str s => by simp [sanitize, isValid, jsTrim_idem]
  | .num _ => rfl
  | .bigintv _ => rfl
  | .boolv _ => rfl
  | .func _ => rfl
  | .arr l => by
    have h := someValid_sanitizeList l
    simp [sanitize, isValid, h]
  | .obj e => by
    have h := someValidEntry_sanitizeEntries e
    simp [sanitize, isValid, h]
def someValid_sanitizeList : ∀ l : TreeList, someValid (sanitizeList l) = someValid l
  | .nil => rfl
  | .cons v rest => by
    have hv := isValid_sanitize v
    have hr := someValid_sanitizeList rest
    by_cases h : isValid (sanitize v) = true
    · simp [sanitizeList, h, someValid, hv ▸ h, hr]
    · have h' : isValid (sanitize v) = false := by simpa using h
      simp [sanitizeList, h', someValid, hv ▸ h', hr]
def someValidEntry_sanitizeEntries :
    ∀ e : TreeEntries, someValidEntry (sanitizeEntries e) = someValidEntry e
  | .nil => rfl
  | .cons k v rest => by
    have hv := isValid_sanitize v
    have hr := someValidEntry_sanitizeEntries rest
    by_cases h : isValid (sanitize v) = true
    · simp [sanitizeEntries, h, someValidEntry, hv ▸ h, hr]
    · have h' : isValid (sanitize v) = false := by simpa using h
      simp [sanitizeEntries, h', someValidEntry, hv ▸ h', hr]
end

/-- Claim C7: sanitizing never changes a tree's validity —
`isValid(sanitize(t)) = isValid(t)` for every tree. -/
theorem isValid_sanitize_unchanged : ∀ t : TreeVal, isValid (sanitize t) = isValid t :=
  isValid_sanitize

/-! ## Claim C6 -/

mutual
def sanitize_sanitize : ∀ t : TreeVal, sanitize (sanitize t) = sanitize t
  | .null => rfl
  | .undef => rfl
  | .str s => by simp [sanitize, jsTrim_idem]
  | .num _ => rfl
  | .bigintv _ => rfl
  | .boolv _ => rfl
  | .func _ => rfl
  | .arr l => by
    have h := sanitizeList_sanitize l
    simp [sanitize, h]
  | .obj e => by
    have h := sanitizeEntries_sanitize e
    simp [sanitize, h]
def sanitizeList_sanitize : ∀ l : TreeList, sanitizeList (sanitizeList l) = sanitizeList l
  | .nil => rfl
  | .cons v rest => by
    have hv := sanitize_sanitize v
    have hval := isValid_sanitize (sanitize v)
    have hr := sanitizeList_sanitize rest
    by_cases h : isValid (sanitize v) = true
    · have h2 : isValid (sanitize (sanitize v)) = true := by rw [hv]; exact h
      simp [sanitizeList, h, h2, hv, hr]
    · have h' : isValid (sanitize v) = false := by simpa using h
      simp [sanitizeList, h', hr]
def sanitizeEntries_sanitize :
    ∀ e : TreeEntries, sanitizeEntries (sanitizeEntries e) = sanitizeEntries e
  | .nil => rfl
  | .cons k v rest => by
    have hv := sanitize_sanitize v
    have hr := sanitizeEntries_sanitize rest
    by_cases h : isValid (sanitize v) = true
    · have h2 : isValid (sanitize (sanitize v)) = true := by rw [hv]; exact h
      simp [sanitizeEntries, h, h2, hv, hr]
    · have h' : isValid (sanitize v) = false := by simpa using h
      simp [sanitizeEntries, h', hr]
end

/-- Claim C6: for every tree `t` such that `isValid(sanitize(t))` holds,
`sanitize(sanitize(t))` is structurally equal to `sanitize(t)` — sanitize is
idempotent on its own output. -/
theorem sanitize_idempotent_on_valid_output :
    ∀ t : TreeVal, isValid (sanitize t) = true → sanitize (sanitize t) = sanitize t :=
  fun t _ => sanitize_sanitize t

theorem sanitize_idempotent_on_valid_output_witness :
    isValid (sanitize (.str " x ")) = true ∧
    sanitize (sanitize (.str " x ")) = sanitize (.str " x ") :=
  ⟨by decide, sanitize_idempotent_on_valid_output (.str " x ") (by decide)⟩

/-! ## Claim C9 -/

/-- Left-biased choice on options (`orO o o'` is `o` when present, else `o'`). -/
def orO {α : Type} : Option α → Option α → Option α
  | some v, _ => some v
  | none, o => o

lemma lookupKey_assignKey_self {α : Type} :
    ∀ (acc : List (String × α)) (key : String) (v : α),
      lookupKey (assignKey acc key v) key = some v := by
  intro acc key v
  induction acc with
  | nil => simp [assignKey, lookupKey]
  | cons e rest ih =>
    by_cases h : (e.1 == key) = true
    · simp [assignKey, lookupKey, h]
    · have h' : (e.1 == key) = false := by simpa using h
      simp [assignKey, lookupKey, h', ih]

lemma lookupKey_assignKey_other {α : Type} :
    ∀ (acc : List (String × α)) (key k : String) (v : α), (key == k) = false →
      lookupKey (assignKey acc key v) k = lookupKey acc k := by
  intro acc key k v hne
  induction acc with
  | nil => simp [assignKey, lookupKey, hne]
  | cons e rest ih =>
    by_cases h : (e.1 == key) = true
    · have he : e.1 = key := beq_iff_eq.mp h
      have h2 : (e.1 == k) = false := by rw [he]; exact hne
      simp [assignKey, lookupKey, h, h2]
    · have h' : (e.1 == key) = false := by simpa using h
      by_cases h2 : (e.1 == k) = true
      · simp [assignKey, lookupKey, h', h2]
      · have h2' : (e.1 == k) = false := by simpa using h2
        simp [assignKey, lookupKey, h', h2', ih]

lemma mem_assignKey {α : Type} :
    ∀ (acc : List (String × α)) (key : String) (v : α) (kv : String × α),
      kv ∈ assignKey acc key v → kv.2 = v ∨ kv ∈ acc := by
  intro acc key v kv h
  induction acc with
  | nil =>
    simp [assignKey] at h
    rw [h]
    exact Or.inl rfl
  | cons e rest ih =>
    by_cases he : (e.1 == key) = true
    · simp [assignKey, he] at h
      rcases h with h | h
      · rw [h]; exact Or.inl rfl
      · exact Or.inr (List.mem_cons_of_mem _ h)
    · have he' : (e.1 == key) = false := by simpa using he
      simp [assignKey, he'] at h
      rcases h with h | h
      · exact Or.inr (by simp [h])
      · rcases ih h with h2 | h2
        · exact Or.inl h2
        · exact Or.inr (List.mem_cons_of_mem _ h2)

lemma lookupKey_mem {α : Type} :
    ∀ (acc : List (String × α)) (k : String) (v : α),
      lookupKey acc k = some v → ∃ k', (k', v) ∈ acc := by
  intro acc k v h
  induction acc with
  | nil => simp [lookupKey] at h
  | cons e rest ih =>
    by_cases he : (e.1 == k) = true
    · refine ⟨e.1, ?_⟩
      have : some e.2 = some v := by simpa [lookupKey, he] using h
      cases this
      simp
    · have he' : (e.1 == k) = false := by simpa using he
      rw [show lookupKey (e :: rest) k = lookupKey rest k from by
        cases e; simp [lookupKey, he']] at h
      obtain ⟨k', hk'⟩ := ih h
      exact ⟨k', List.mem_cons_of_mem _ hk'⟩

lemma normGo_lookup (f : TreeVal → String) :
    ∀ (items : List TreeVal) (acc : List (String × TreeVal)),
      (∀ kv ∈ acc, isTruthy kv.2 = true) →
      (∀ v ∈ items, isTruthy v = true) →
      ∀ k, lookupKey (normalizeGo f items acc) k =
        orO (lookupKey acc k) (items.find? fun e => isValid (.str (f e)) && (f e == k)) := by
  intro items
  induction items with
  | nil =>
    intro acc hacc hit k
    rcases h : lookupKey acc k with _ | v <;> simp [normalizeGo, orO, h]
  | cons item rest ih =>
    intro acc hacc hit k
    have hitr : ∀ v ∈ rest, isTruthy v = true :=
      fun v hv => hit v (List.mem_cons_of_mem _ hv)
    by_cases hval : isValid (.str (f item)) = true
    · by_cases hpres : isTruthy ((lookupKey acc (f item)).getD .undef) = true
      · -- slot already holds a truthy element: the new element is discarded
        have hstep : normalizeGo f (item :: rest) acc = normalizeGo f rest acc := by
          simp [normalizeGo, hval, hpres]
        rw [hstep, ih acc hacc hitr k]
        by_cases hk : (f item == k) = true
        · have hk' : f item = k := beq_iff_eq.mp hk
          rcases hl : lookupKey acc (f item) with _ | v
          · rw [hl] at hpres; simp [isTruthy] at hpres
          · rw [List.find?_cons_of_pos _ (by simp [hval, hk]), ← hk', hl]
            rfl
        · have hkf : (f item == k) = false := by simpa using hk
          rw [List.find?_cons_of_neg _ (by simp [hkf])]
      · -- slot absent (it cannot hold a falsy element, all stored ones are truthy)
        have hnone : lookupKey acc (f item) = none := by
          rcases hl : lookupKey acc (f item) with _ | v
          · rfl
          · exfalso
            apply hpres
            rw [hl]
            obtain ⟨k', hk'⟩ := lookupKey_mem acc (f item) v hl
            exact hacc (k', v) hk'
        have hstep : normalizeGo f (item :: rest) acc
            = normalizeGo f rest (assignKey acc (f item) item) := by
          simp [normalizeGo, hval, hpres]
        have hacc' : ∀ kv ∈ assignKey acc (f item) item, isTruthy kv.2 = true := by
          intro kv hkv
          rcases mem_assignKey acc (f item) item kv hkv with h | h
          · rw [h]; exact hit item (List.mem_cons_self _ _)
          · exact hacc kv h
        rw [hstep, ih _ hacc' hitr k]
        by_cases hk : (f item == k) = true
        · have hk' : f item = k := beq_iff_eq.mp hk
          rw [List.find?_cons_of_pos _ (by simp [hval, hk]), ← hk',
            lookupKey_assignKey_self, hnone]
          rfl
        · have hkf : (f item == k) = false := by simpa using hk
          rw [List.find?_cons_of_neg _ (by simp [hkf]),
            lookupKey_assignKey_other acc (f item) k item hkf]
    · have hvalf : isValid (.str (f item)) = false := by simpa using hval
      have hstep : normalizeGo f (item :: rest) acc = normalizeGo f rest acc := by
        simp [normalizeGo, hvalf]
      rw [hstep, ih acc hacc hitr k, List.find?_cons_of_neg _ (by simp [hvalf])]

/-- Claim C9 counterexample: with elements `[0, 5]` all mapping to the key
`"k"`, `normalize` retains the second element `5`, not the first element `0`
— the source's `!accumulator[key]` test is truthiness, not presence, so a
stored falsy element is overwritten. -/
theorem normalize_not_always_first_element :
    normalize (.arr (.cons (.num 0) (.cons (.num 5) .nil))) (some fun _ => "k")
      = [("k", .num 5)] ∧ (TreeVal.num 5) ≠ (TreeVal.num 0) := by
  decide

/-- Claim C9 (amended): provided every element of the sequence is truthy,
`normalize` maps each valid derived key to the first element (in input
order) whose derived key it is — subsequent elements with the same key are
discarded, and elements whose derived key fails `isValid` are skipped.
(Without the truthiness proviso, a stored falsy element is overwritten by
the next element with the same key.) -/
theorem normalize_first_wins_on_truthy_elements :
    ∀ (l : TreeList) (f : TreeVal → String),
      (∀ v ∈ l.toList, isTruthy v = true) →
      ∀ k, lookupKey (normalize (.arr l) (some f)) k
        = l.toList.find? fun e => isValid (.str (f e)) && (f e == k) := by
  intro l f h k
  have hmain := normGo_lookup f l.toList [] (by simp) h k
  simpa [normalize, lookupKey, orO] using hmain

theorem normalize_first_wins_on_truthy_elements_witness :
    (∀ v ∈ (TreeList.cons (.num 1) (.cons (.num 2) .nil)).toList, isTruthy v = true) ∧
    lookupKey
        (normalize (.arr (.cons (.num 1) (.cons (.num 2) .nil))) (some fun _ => "a")) "a"
      = (TreeList.cons (.num 1) (.cons (.num 2) .nil)).toList.find?
          fun e => isValid (.str ((fun _ => "a") e)) && ((fun _ => "a") e == "a") :=
  ⟨by decide, normalize_first_wins_on_truthy_elements _ _ (by decide) "a"⟩

/-! ## Depth bounds and fuel stability for `areEqual` -/

lemma all_congr_mem {α : Type} :
    ∀ (l : List α) (p q : α → Bool), (∀ x ∈ l, p x = q x) → l.all p = l.all q := by
  intro l p q h
  induction l with
  | nil => rfl
  | cons a t ih =>
    simp only [List.all_cons, h a (List.mem_cons_self _ _),
      ih fun x hx => h x (List.mem_cons_of_mem _ hx)]

def depth_jsGet_le : ∀ (e : TreeEntries) (k : String),
    (jsGet e k).depth ≤ TreeEntries.depthMax e
  | .nil, _ => Nat.le_refl 0
  | .cons k' v rest, k => by
    by_cases h : (k' == k) = true
    · simp only [jsGet, h, if_true, TreeEntries.depthMax]
      exact le_max_left _ _
    · have h' : (k' == k) = false := by simpa using h
      simp only [jsGet, h', TreeEntries.depthMax, Bool.false_eq_true, if_false]
      exact le_trans (depth_jsGet_le rest k) (le_max_right _ _)

def depth_getD_le : ∀ (l : TreeList) (i : Nat),
    (l.toList.getD i .undef).depth ≤ TreeList.depthMax l
  | .nil, i => by simp [TreeList.toList, TreeVal.depth, TreeList.depthMax]
  | .cons v rest, 0 => by
    simp only [TreeList.toList, List.getD, TreeList.depthMax]
    exact le_max_left _ _
  | .cons v rest, i + 1 => by
    have h := depth_getD_le rest i
    simp only [TreeList.toList, TreeList.depthMax]
    calc ((v :: rest.toList).getD (i + 1) .undef).depth
        = (rest.toList.getD i .undef).depth := by simp [List.getD]
      _ ≤ TreeList.depthMax rest := h
      _ ≤ max v.depth (TreeList.depthMax rest) := le_max_right _ _

def areEqualF_stable : ∀ (f g : Nat) (x y : TreeVal) (w c : Bool),
    x.depth + y.depth < f → x.depth + y.depth < g →
    areEqualF f x y w c = areEqualF g x y w c
  | 0, _, _, _, _, _, hf, _ => absurd hf (Nat.not_lt_zero _)
  | _ + 1, 0, _, _, _, _, _, hg => absurd hg (Nat.not_lt_zero _)
  | f + 1, g + 1, x, y, w, c, hf, hg => by
    cases x <;> cases y <;> try rfl
    case arr.arr l1 l2 =>
      have hd1 : TreeVal.depth (.arr l1) = 1 + TreeList.depthMax l1 := rfl
      have hd2 : TreeVal.depth (.arr l2) = 1 + TreeList.depthMax l2 := rfl
      show (_ && (List.range l2.toList.length).all fun i =>
            areEqualF f (l2.toList.getD i .undef) (l1.toList.getD i .undef) w c)
        = (_ && (List.range l2.toList.length).all fun i =>
            areEqualF g (l2.toList.getD i .undef) (l1.toList.getD i .undef) w c)
      refine congrArg _ (all_congr_mem _ _ _ fun i _ => ?_)
      have b2 := depth_getD_le l2 i
      have b1 := depth_getD_le l1 i
      exact areEqualF_stable f g _ _ w c (by rw [hd1, hd2] at hf; omega)
        (by rw [hd1, hd2] at hg; omega)
    case obj.obj e1 e2 =>
      have hd1 : TreeVal.depth (.obj e1) = 1 + TreeEntries.depthMax e1 := rfl
      have hd2 : TreeVal.depth (.obj e2) = 1 + TreeEntries.depthMax e2 := rfl
      show (_ && e1.keys.all fun k => areEqualF f (jsGet e1 k) (jsGet e2 k) w c)
        = (_ && e1.keys.all fun k => areEqualF g (jsGet e1 k) (jsGet e2 k) w c)
      refine congrArg _ (all_congr_mem _ _ _ fun k _ => ?_)
      have b1 := depth_jsGet_le e1 k
      have b2 := depth_jsGet_le e2 k
      exact areEqualF_stable f g _ _ w c (by rw [hd1, hd2] at hf; omega)
        (by rw [hd1, hd2] at hg; omega)

lemma areEqualF_undef_right (fuel : Nat) (x : TreeVal) (w c : Bool) (h : x ≠ .undef) :
    areEqualF fuel x .undef w c = false := by
  cases fuel with
  | zero => rfl
  | succ n => cases x <;> first | rfl | exact absurd rfl h

lemma areEqualF_undef_left (fuel : Nat) (x : TreeVal) (w c : Bool) (h : x ≠ .undef) :
    areEqualF fuel .undef x w c = false := by
  cases fuel with
  | zero => rfl
  | succ n => cases x <;> first | rfl | exact absurd rfl h

/-- Unfolding `areEqual` on two objects, with the inner fuel re-normalized:
compare key counts, then for each key of the first object compare the two
property accesses recursively. -/
lemma areEqual_obj (e1 e2 : TreeEntries) (w c : Bool) :
    areEqual (.obj e1) (.obj e2) w c =
      ((e1.keys.length == e2.keys.length) &&
        e1.keys.all fun k => areEqual (jsGet e1 k) (jsGet e2 k) w c) := by
  have hd1 : TreeVal.depth (.obj e1) = 1 + TreeEntries.depthMax e1 := rfl
  have hd2 : TreeVal.depth (.obj e2) = 1 + TreeEntries.depthMax e2 := rfl
  show (_ && e1.keys.all fun k =>
      areEqualF (TreeVal.depth (.obj e1) + TreeVal.depth (.obj e2)) (jsGet e1 k) (jsGet e2 k) w c)
    = (_ && e1.keys.all fun k => areEqual (jsGet e1 k) (jsGet e2 k) w c)
  refine congrArg _ (all_congr_mem _ _ _ fun k _ => ?_)
  have b1 := depth_jsGet_le e1 k
  have b2 := depth_jsGet_le e2 k
  exact areEqualF_stable _ _ _ _ w c (by rw [hd1, hd2]; omega) (by omega)

/-! ## Well-formed trees (data-model invariants) -/

/-- Pairwise-distinct keys of one entry list (the data model's "keys unique"
invariant for records). -/
def distinctKeys : TreeEntries → Bool
  | .nil => true
  | .cons k _ rest => !(rest.keys.contains k) && distinctKeys rest

mutual
/-- Data-model well-formedness: every record in the tree has pairwise
distinct keys and never stores `undefined` (`Missing`) as a value. -/
def wfTree : TreeVal → Bool
  | .arr l => wfList l
  | .obj e => distinctKeys e && wfEntries e
  | _ => true
def wfList : TreeList → Bool
  | .nil => true
  | .cons v rest => wfTree v && wfList rest
def wfEntries : TreeEntries → Bool
  | .nil => true
  | .cons _ v rest => (v != .undef) && wfTree v && wfEntries rest
end

def wfEntries_jsGet : ∀ (e : TreeEntries) (k : String),
    wfEntries e = true → wfTree (jsGet e k) = true
  | .nil, _, _ => rfl
  | .cons k' v rest, k, h => by
    simp only [wfEntries, Bool.and_eq_true] at h
    by_cases hk : (k' == k) = true
    · simp only [jsGet, hk, if_true]
      exact h.1.2
    · have hk' : (k' == k) = false := by simpa using hk
      simp only [jsGet, hk', Bool.false_eq_true, if_false]
      exact wfEntries_jsGet rest k h.2

def wfList_getD : ∀ (l : TreeList) (i : Nat),
    wfList l = true → wfTree (l.toList.getD i .undef) = true
  | .nil, i, _ => by simp [TreeList.toList, wfTree]
  | .cons v rest, 0, h => by
    simp only [wfList, Bool.and_eq_true] at h
    simpa [TreeList.toList, List.getD] using h.1
  | .cons v rest, i + 1, h => by
    simp only [wfList, Bool.and_eq_true] at h
    have := wfList_getD rest i h.2
    simpa [TreeList.toList, List.getD] using this

def wfEntries_jsGet_undef_iff :
    ∀ (e : TreeEntries) (k : String), wfEntries e = true →
      (jsGet e k = .undef ↔ k ∉ e.keys)
  | .nil, k, _ => by simp [jsGet, TreeEntries.keys, TreeEntries.toList]
  | .cons k' v rest, k, h => by
    simp only [wfEntries, Bool.and_eq_true, bne_iff_ne] at h
    by_cases hk : (k' == k) = true
    · have hk' : k' = k := beq_iff_eq.mp hk
      simp only [jsGet, hk, if_true, TreeEntries.keys, TreeEntries.toList, List.map_cons,
        List.mem_cons]
      constructor
      · intro hv; exact absurd hv h.1.1
      · intro hnot; exact absurd (Or.inl hk'.symm) hnot
    · have hk2 : (k' == k) = false := by simpa using hk
      have hne : k ≠ k' := fun e => (by simp [e] at hk2)
      simp only [jsGet, hk2, Bool.false_eq_true, if_false, TreeEntries.keys,
        TreeEntries.toList, List.map_cons, List.mem_cons]
      rw [wfEntries_jsGet_undef_iff rest k h.2]
      simp [TreeEntries.keys, hne]

def distinctKeys_nodup : ∀ e : TreeEntries, distinctKeys e = true → e.keys.Nodup
  | .nil, _ => by simp [TreeEntries.keys, TreeEntries.toList]
  | .cons k v rest, h => by
    simp only [distinctKeys, Bool.and_eq_true, Bool.not_eq_true'] at h
    have hmem : k ∉ rest.keys := by
      intro hm
      have hc : rest.keys.contains k = true := by simpa using hm
      rw [hc] at h
      exact absurd h.1 (by simp)
    have hcons : TreeEntries.keys (.cons k v rest) = k :: rest.keys := by
      simp [TreeEntries.keys, TreeEntries.toList]
    rw [hcons]
    exact List.nodup_cons.mpr ⟨hmem, distinctKeys_nodup rest h.2⟩

lemma keys_exhaust {K1 K2 : List String} (hsub : ∀ k ∈ K1, k ∈ K2)
    (hlen : K1.length = K2.length) (hnd : K1.Nodup) : ∀ k ∈ K2, k ∈ K1 := by
  intro k hk
  have h1 : K1.toFinset ⊆ K2.toFinset := by
    intro a ha
    rw [List.mem_toFinset] at ha ⊢
    exact hsub a ha
  have hc1 : K1.toFinset.card = K1.length := List.toFinset_card_of_nodup hnd
  have hc2 : K2.toFinset.card ≤ K2.length := List.toFinset_card_le K2
  have heq : K1.toFinset = K2.toFinset :=
    Finset.eq_of_subset_of_card_le h1 (by omega)
  rw [← List.mem_toFinset, ← heq, List.mem_toFinset] at hk
  exact hk

/-! ## Symmetry of `areEqual` on well-formed trees -/

lemma beqComm {α : Type} [BEq α] [LawfulBEq α] (a b : α) : (a == b) = (b == a) := by
  by_cases h : a = b
  · subst h; rfl
  · rw [beq_eq_false_iff_ne.mpr h, beq_eq_false_iff_ne.mpr (Ne.symm h)]

lemma strEqJS_comm (a b : String) (w c : Bool) : strEqJS a b w c = strEqJS b a w c := by
  cases c
  · show ((if w then jsTrim a else a) == (if w then jsTrim b else b))
      = ((if w then jsTrim b else b) == (if w then jsTrim a else a))
    exact beqComm _ _
  · show (jsToLower (if w then jsTrim a else a) == jsToLower (if w then jsTrim b else b))
      = (jsToLower (if w then jsTrim b else b) == jsToLower (if w then jsTrim a else a))
    exact beqComm _ _

def areEqualF_symm : ∀ (fuel : Nat) (a b : TreeVal) (w c : Bool),
    wfTree a = true → wfTree b = true →
    areEqualF fuel a b w c = areEqualF fuel b a w c
  | 0, _, _, _, _, _, _ => rfl
  | fuel + 1, a, b, w, c, ha, hb => by
    cases a <;> cases b <;> try rfl
    case str.str s1 s2 => exact strEqJS_comm s1 s2 w c
    case num.num n1 n2 => exact beqComm n1 n2
    case bigintv.bigintv n1 n2 => exact beqComm n1 n2
    case boolv.boolv b1 b2 => exact beqComm b1 b2
    case func.func i1 i2 => exact beqComm i1 i2
    case arr.arr l1 l2 =>
      have hw1 : wfList l1 = true := ha
      have hw2 : wfList l2 = true := hb
      show ((l1.toList.length == l2.toList.length) && (List.range l2.toList.length).all fun i =>
            areEqualF fuel (l2.toList.getD i .undef) (l1.toList.getD i .undef) w c)
        = ((l2.toList.length == l1.toList.length) && (List.range l1.toList.length).all fun i =>
            areEqualF fuel (l1.toList.getD i .undef) (l2.toList.getD i .undef) w c)
      by_cases hlen : l1.toList.length = l2.toList.length
      · rw [hlen, beqComm]
        refine congrArg _ (all_congr_mem _ _ _ fun i _ => ?_)
        exact areEqualF_symm fuel _ _ w c (wfList_getD l2 i hw2) (wfList_getD l1 i hw1)
      · rw [beq_eq_false_iff_ne.mpr hlen, beq_eq_false_iff_ne.mpr (Ne.symm hlen)]
        rfl
    case obj.obj e1 e2 =>
      have hd1 : distinctKeys e1 = true := by
        have := ha; simp only [wfTree, Bool.and_eq_true] at this; exact this.1
      have he1 : wfEntries e1 = true := by
        have := ha; simp only [wfTree, Bool.and_eq_true] at this; exact this.2
      have hd2 : distinctKeys e2 = true := by
        have := hb; simp only [wfTree, Bool.and_eq_true] at this; exact this.1
      have he2 : wfEntries e2 = true := by
        have := hb; simp only [wfTree, Bool.and_eq_true] at this; exact this.2
      show ((e1.keys.length == e2.keys.length) && e1.keys.all fun k =>
            areEqualF fuel (jsGet e1 k) (jsGet e2 k) w c)
        = ((e2.keys.length == e1.keys.length) && e2.keys.all fun k =>
            areEqualF fuel (jsGet e2 k) (jsGet e1 k) w c)
      by_cases hlen : e1.keys.length = e2.keys.length
      · rw [hlen, beqComm]
        refine congrArg _ ?_
        have hpt : ∀ k, areEqualF fuel (jsGet e1 k) (jsGet e2 k) w c
            = areEqualF fuel (jsGet e2 k) (jsGet e1 k) w c := fun k =>
          areEqualF_symm fuel _ _ w c (wfEntries_jsGet e1 k he1) (wfEntries_jsGet e2 k he2)
        -- both sides now evaluate the same pointwise predicate over the two key lists
        have main : ∀ K1 K2 : TreeEntries, distinctKeys K1 = true → wfEntries K1 = true →
            wfEntries K2 = true → K1.keys.length = K2.keys.length →
            (K1.keys.all fun k => areEqualF fuel (jsGet K1 k) (jsGet K2 k) w c) = true →
            (K2.keys.all fun k => areEqualF fuel (jsGet K2 k) (jsGet K1 k) w c) = true := by
          intro K1 K2 hK1d hK1 hK2 hKlen hall
          rw [List.all_eq_true] at hall ⊢
          have hsub : ∀ k ∈ K1.keys, k ∈ K2.keys := by
            intro k hk
            have hx : jsGet K1 k ≠ .undef := by
              intro hu
              exact absurd ((wfEntries_jsGet_undef_iff K1 k hK1).mp hu) (by simpa using hk)
            by_contra hnot
            have hu2 : jsGet K2 k = .undef :=
              (wfEntries_jsGet_undef_iff K2 k hK2).mpr hnot
            have := hall k hk
            rw [hu2, areEqualF_undef_right fuel _ w c hx] at this
            exact absurd this (by simp)
          have hsup : ∀ k ∈ K2.keys, k ∈ K1.keys :=
            keys_exhaust hsub hKlen (distinctKeys_nodup K1 hK1d)
          intro k hk
          have h1 := hall k (hsup k hk)
          have hs := areEqualF_symm fuel (jsGet K1 k) (jsGet K2 k) w c
            (wfEntries_jsGet K1 k hK1) (wfEntries_jsGet K2 k hK2)
          rw [← hs]
          exact h1
        rcases h1 : (e1.keys.all fun k => areEqualF fuel (jsGet e1 k) (jsGet e2 k) w c) with _ | _
        · rcases h2 : (e2.keys.all fun k => areEqualF fuel (jsGet e2 k) (jsGet e1 k) w c) with _ | _
          · rfl
          · exact absurd (main e2 e1 hd2 he2 he1 hlen.symm h2) (by simp [← hpt, h1])
        · exact (main e1 e2 hd1 he1 he2 hlen h1).symm
      · rw [beq_eq_false_iff_ne.mpr hlen, beq_eq_false_iff_ne.mpr (Ne.symm hlen)]
        rfl

/-! ## Claim C8 -/

/-- Claim C8 counterexample: with `a = {x: 1, y: undefined}` and
`b = {x: 1, z: 2}`, `areEqual(a, b)` is `true` (iterating only `a`'s keys,
`b["y"]` is `undefined` and equals the stored `undefined`) while
`areEqual(b, a)` is `false` — `areEqual` is not symmetric. -/
theorem areEqual_not_symmetric :
    areEqual (.obj (.cons "x" (.num 1) (.cons "y" .undef .nil)))
        (.obj (.cons "x" (.num 1) (.cons "z" (.num 2) .nil))) false true = true ∧
    areEqual (.obj (.cons "x" (.num 1) (.cons "z" (.num 2) .nil)))
        (.obj (.cons "x" (.num 1) (.cons "y" .undef .nil))) false true = false := by
  decide

/-- Claim C8 (amended): `areEqual` is symmetric on well-formed trees — trees
whose records have pairwise distinct keys and never store `undefined`
(`Missing`) as a value.  (A record storing `undefined` breaks symmetry,
because looking up an absent key also produces `undefined`.) -/
theorem areEqual_symm_on_wellformed :
    ∀ (a b : TreeVal) (w c : Bool), wfTree a = true → wfTree b = true →
      areEqual a b w c = areEqual b a w c := by
  intro a b w c ha hb
  show areEqualF (a.depth + b.depth + 1) a b w c
    = areEqualF (b.depth + a.depth + 1) b a w c
  rw [Nat.add_comm b.depth a.depth]
  exact areEqualF_symm _ a b w c ha hb

theorem areEqual_symm_on_wellformed_witness :
    wfTree (.obj (.cons "x" (.num 1) .nil)) = true ∧
    wfTree (.str "Hello") = true ∧
    areEqual (.obj (.cons "x" (.num 1) .nil)) (.str "Hello") false true
      = areEqual (.str "Hello") (.obj (.cons "x" (.num 1) .nil)) false true :=
  ⟨by decide, by decide,
    areEqual_symm_on_wellformed _ _ false true (by decide) (by decide)⟩

/-! ## Claim C2 -/

/-- Presence-aware lookup in an entry list: `some v` when the key is stored
(first match), `none` when absent. -/
def lookupEnt : TreeEntries → String → Option TreeVal
  | .nil, _ => none
  | .cons k' v rest, k => if k' == k then some v else lookupEnt rest k

def jsGet_eq_lookupEnt : ∀ (e : TreeEntries) (k : String),
    jsGet e k = (lookupEnt e k).getD .undef
  | .nil, _ => rfl
  | .cons k' v rest, k => by
    by_cases h : (k' == k) = true
    · simp [jsGet, lookupEnt, h]
    · have h' : (k' == k) = false := by simpa using h
      simp [jsGet, lookupEnt, h', jsGet_eq_lookupEnt rest k]

def jsGet_stored : ∀ (e : TreeEntries) (k : String),
    k ∈ e.keys → (k, jsGet e k) ∈ e.toList
  | .nil, k, h => by simp [TreeEntries.keys, TreeEntries.toList] at h
  | .cons k' v rest, k, h => by
    by_cases hk : (k' == k) = true
    · have he : k' = k := beq_iff_eq.mp hk
      simp [jsGet, hk, TreeEntries.toList, he]
    · have hk' : (k' == k) = false := by simpa using hk
      have hne : k ≠ k' := fun e => (by simp [e] at hk')
      have hmem : k ∈ rest.keys := by
        simpa [TreeEntries.keys, TreeEntries.toList, hne] using h
      simp only [jsGet, hk', Bool.false_eq_true, if_false, TreeEntries.toList,
        List.mem_cons]
      exact Or.inr (jsGet_stored rest k hmem)

lemma areEqual_undef_right (x : TreeVal) (w c : Bool) (h : x ≠ .undef) :
    areEqual x .undef w c = false :=
  areEqualF_undef_right _ x w c h

/-- Claim C2 counterexample: `areEqual({x: undefined}, {y: undefined})`
returns `true` although the key `"x"` of the first record has no value at
all in the second record — a key unique to one side is not always detected,
and the claimed iff-characterization fails. -/
theorem areEqual_records_missed_unique_key :
    areEqual (.obj (.cons "x" .undef .nil)) (.obj (.cons "y" .undef .nil)) false true = true ∧
    "x" ∈ (TreeEntries.cons "x" .undef .nil).keys ∧
    "x" ∉ (TreeEntries.cons "y" .undef .nil).keys ∧
    lookupEnt (.cons "y" .undef .nil) "x" = none := by
  decide

/-- Claim C2 (amended): provided the first record never stores `undefined`
(`Missing`) as a value, `areEqual(a, b, w, c)` on two records returns `true`
iff `a` and `b` have the same number of keys and every key present in `a`
has a value stored in `b` under the same key that is recursively equal to
`a`'s value under that key.  (When `a` stores `undefined`, the per-key
lookup in `b` can also produce `undefined` for an absent key and compare
equal, so a key unique to one side is not detected.) -/
theorem areEqual_records_iff_counts_and_lookups :
    ∀ (e1 e2 : TreeEntries) (w c : Bool),
      (∀ kv ∈ e1.toList, kv.2 ≠ TreeVal.undef) →
      (areEqual (.obj e1) (.obj e2) w c = true ↔
        e1.keys.length = e2.keys.length ∧
        ∀ k ∈ e1.keys, ∃ v, lookupEnt e2 k = some v ∧
          areEqual (jsGet e1 k) v w c = true) := by
  intro e1 e2 w c h
  rw [areEqual_obj]
  simp only [Bool.and_eq_true, beq_iff_eq, List.all_eq_true]
  constructor
  · rintro ⟨hlen, hall⟩
    refine ⟨hlen, fun k hk => ?_⟩
    have h1 : jsGet e1 k ≠ .undef := h (k, jsGet e1 k) (jsGet_stored e1 k hk)
    have h2 := hall k hk
    rcases hl : lookupEnt e2 k with _ | v
    · have hu : jsGet e2 k = .undef := by rw [jsGet_eq_lookupEnt, hl]; rfl
      rw [hu, areEqual_undef_right _ _ _ h1] at h2
      exact absurd h2 (by simp)
    · have hv : jsGet e2 k = v := by rw [jsGet_eq_lookupEnt, hl]; rfl
      exact ⟨v, rfl, hv ▸ h2⟩
  · rintro ⟨hlen, hall⟩
    refine ⟨hlen, fun k hk => ?_⟩
    obtain ⟨v, hv, he⟩ := hall k hk
    have hg : jsGet e2 k = v := by rw [jsGet_eq_lookupEnt, hv]; rfl
    rw [hg]
    exact he

theorem areEqual_records_iff_counts_and_lookups_witness :
    (∀ kv ∈ (TreeEntries.cons "a" (.num 1) .nil).toList, kv.2 ≠ TreeVal.undef) ∧
    (areEqual (.obj (.cons "a" (.num 1) .nil)) (.obj (.cons "a" (.num 1) .nil))
        false true = true ↔
      (TreeEntries.cons "a" (.num 1) .nil).keys.length
          = (TreeEntries.cons "a" (.num 1) .nil).keys.length ∧
      ∀ k ∈ (TreeEntries.cons "a" (.num 1) .nil).keys,
        ∃ v, lookupEnt (.cons "a" (.num 1) .nil) k = some v ∧
          areEqual (jsGet (.cons "a" (.num 1) .nil) k) v false true = true) :=
  ⟨by decide,
    areEqual_records_iff_counts_and_lookups _ _ false true (by decide)⟩

end Tadepool
